import Mathlib

/-!
Verification of the wallet core (a nockchain-style UTXO ledger).

This file shallowly embeds the Rust modules
`src/api/src/wallet/{mod,balance,keys,transaction}.rs` in Lean and proves
properties of the embedded definitions.

Modelling conventions:
* `u64` values are natural numbers; where the Rust code performs `u64`
  addition whose overflow is observable, the embedding reduces modulo
  `2^64` (release-mode wrapping semantics); `u64::saturating_sub`
  coincides with truncated `Nat` subtraction.
* `HashMap` is modelled as an association list with insert-or-replace
  semantics; iteration order is the list order.
* `Uuid` is modelled as `Nat`, byte strings as `List Nat`.
* Fallible operations return their final state together with an
  `Except WalletError` result (`&mut self` methods pass state explicitly).
* SHA-256 is left abstract: definitions that hash take the compression
  function as an explicit argument `sha : List Nat → List Nat`.
-/

namespace Wallet

/-- `2^64`, the modulus of `u64` arithmetic. -/
def U64 : Nat := 18446744073709551616

/-- Wrapping `u64` addition (`+=` on `u64` fields in release mode). -/
def u64add (a b : Nat) : Nat := (a + b) % U64

/-- Embeds `WalletError` from `src/api/src/wallet/mod.rs`. -/
inductive WalletError where
  | Crypto (msg : String)
  | Storage (msg : String)
  | Network (msg : String)
  | InvalidAddress (msg : String)
  | InsufficientFunds (required available : Nat)
  | Transaction (msg : String)
  | AuthenticationFailed
  | KeyNotFound (msg : String)
  | KeyExists (msg : String)
  | NoDefaultKey
  | Serialization (msg : String)
  | BlockValidation (msg : String)
  | Consensus (msg : String)
deriving DecidableEq

/-- Embeds `Address` (a 32-byte public key) from `mod.rs`. -/
structure Address where
  public_key : List Nat
deriving DecidableEq

/-- Embeds `Balance` from `mod.rs`. -/
structure Balance where
  confirmed : Nat
  unconfirmed : Nat
  locked : Nat
deriving DecidableEq

/-- `Balance::new`. -/
def Balance.new : Balance := ⟨0, 0, 0⟩

/-- Embeds `Note` (a UTXO) from `mod.rs`. -/
structure Note where
  id : Nat
  address : Address
  amount : Nat
  block_height : Option Nat
  transaction_id : String
  output_index : Nat
  spent : Bool
  locked : Bool
  created_at : Nat
deriving DecidableEq

/-- Embeds `BalanceManager` from `balance.rs`: `notes` is the
`HashMap<Uuid, Note>` keyed by `Note.id`, `address_balances` the
`HashMap<Address, Balance>`. -/
structure BalanceManager where
  notes : List Note
  address_balances : List (Address × Balance)
deriving DecidableEq

/-- `BalanceManager::new`. -/
def BalanceManager.new : BalanceManager := ⟨[], []⟩

/-- `HashMap::insert` on the note store keyed by `Note.id`:
replace the entry if the key is present, otherwise append. -/
def insertNote (l : List Note) (n : Note) : List Note :=
  if l.any (fun m => m.id == n.id) then
    l.map (fun m => if m.id == n.id then n else m)
  else
    l ++ [n]

/-- `HashMap::get` on the balance map. -/
def lookupBal (l : List (Address × Balance)) (a : Address) : Option Balance :=
  (l.find? (fun p => p.1 == a)).map (fun p => p.2)

/-- In-place update of the balance entry for key `a` (the effect of
mutating through `HashMap::get_mut` / `Entry::or_insert_with`). -/
def updateBal (l : List (Address × Balance)) (a : Address) (b : Balance) :
    List (Address × Balance) :=
  l.map (fun p => if p.1 == a then (p.1, b) else p)

/-- Embeds `BalanceManager::add_note`. -/
def BalanceManager.add_note (s : BalanceManager) (note : Note) :
    BalanceManager × Except WalletError Unit :=
  let notes' := insertNote s.notes note
  let bump := fun (b : Balance) =>
    if note.block_height.isSome then
      { b with confirmed := u64add b.confirmed note.amount }
    else
      { b with unconfirmed := u64add b.unconfirmed note.amount }
  match lookupBal s.address_balances note.address with
  | some b =>
      (⟨notes', updateBal s.address_balances note.address (bump b)⟩, .ok ())
  | none =>
      (⟨notes', s.address_balances ++ [(note.address, bump Balance.new)]⟩, .ok ())

/-- Marks the note with the given id as spent (`note.spent = true`
through `HashMap::get_mut`). -/
def markSpent (l : List Note) (note_id : Nat) : List Note :=
  l.map (fun n => if n.id == note_id then { n with spent := true } else n)

/-- Embeds `BalanceManager::spend_note`. -/
def BalanceManager.spend_note (s : BalanceManager) (note_id : Nat) :
    BalanceManager × Except WalletError Unit :=
  match s.notes.find? (fun n => n.id == note_id) with
  | none =>
      (s, .error (.KeyNotFound s!"Note {note_id} not found"))
  | some note =>
      if note.spent then
        (s, .error (.Transaction "Note already spent"))
      else
        let notes' := markSpent s.notes note_id
        match lookupBal s.address_balances note.address with
        | none =>
            (⟨notes', s.address_balances⟩,
             .error (.Storage "Address balance not found"))
        | some b =>
            let b' :=
              if note.block_height.isSome then
                { b with confirmed := b.confirmed - note.amount }
              else
                { b with unconfirmed := b.unconfirmed - note.amount }
            (⟨notes', updateBal s.address_balances note.address b'⟩, .ok ())

/-- Embeds `BalanceManager::get_balance`. -/
def BalanceManager.get_balance (s : BalanceManager) (address : Address) : Balance :=
  (lookupBal s.address_balances address).getD Balance.new

/-- Embeds `BalanceManager::get_spendable_notes`; the `amount`
parameter is taken but, as in the source, never read. -/
def BalanceManager.get_spendable_notes (s : BalanceManager) (address : Address)
    (amount : Nat) : List Note :=
  s.notes.filter (fun note =>
    note.address == address && !note.spent && !note.locked
      && note.block_height.isSome)

/-- Claim C2: `spend_note` on an id whose note is already spent returns a
`Transaction` error and leaves the whole `BalanceManager` (every note and
every balance) unchanged; `spend_note` on an id absent from the note store
returns a `KeyNotFound` error and likewise leaves the state unchanged. -/
theorem c2_spend_note_error_cases_preserve_state :
    ∀ (s : BalanceManager) (note_id : Nat),
      (∀ note, s.notes.find? (fun n => n.id == note_id) = some note →
        note.spent = true →
        s.spend_note note_id = (s, .error (.Transaction "Note already spent"))) ∧
      (s.notes.find? (fun n => n.id == note_id) = none →
        s.spend_note note_id =
          (s, .error (.KeyNotFound s!"Note {note_id} not found"))) := by
  intro s note_id
  constructor
  · intro note hfind hspent
    simp [BalanceManager.spend_note, hfind, hspent]
  · intro hfind
    simp [BalanceManager.spend_note, hfind]

/-- Witness for C2 at a concrete two-note state: spending the already-spent
note 1 fails with the `Transaction` error, spending the absent id 2 fails
with `KeyNotFound`, and both leave the state unchanged. -/
theorem c2_spend_note_error_cases_preserve_state_witness :
    (BalanceManager.spend_note
        ⟨[⟨1, ⟨List.replicate 32 0⟩, 5, some 10, "tx", 0, true, false, 0⟩],
         [(⟨List.replicate 32 0⟩, ⟨0, 0, 0⟩)]⟩ 1
      = (⟨[⟨1, ⟨List.replicate 32 0⟩, 5, some 10, "tx", 0, true, false, 0⟩],
          [(⟨List.replicate 32 0⟩, ⟨0, 0, 0⟩)]⟩,
         .error (.Transaction "Note already spent"))) ∧
    (BalanceManager.spend_note
        ⟨[⟨1, ⟨List.replicate 32 0⟩, 5, some 10, "tx", 0, true, false, 0⟩],
         [(⟨List.replicate 32 0⟩, ⟨0, 0, 0⟩)]⟩ 2
      = (⟨[⟨1, ⟨List.replicate 32 0⟩, 5, some 10, "tx", 0, true, false, 0⟩],
          [(⟨List.replicate 32 0⟩, ⟨0, 0, 0⟩)]⟩,
         .error (.KeyNotFound "Note 2 not found"))) := by
  refine ⟨(c2_spend_note_error_cases_preserve_state _ 1).1
    ⟨1, ⟨List.replicate 32 0⟩, 5, some 10, "tx", 0, true, false, 0⟩ (by rfl) rfl, ?_⟩
  have h := (c2_spend_note_error_cases_preserve_state
    (⟨[⟨1, ⟨List.replicate 32 0⟩, 5, some 10, "tx", 0, true, false, 0⟩],
      [(⟨List.replicate 32 0⟩, ⟨0, 0, 0⟩)]⟩ : BalanceManager) 2).2 (by decide)
  simpa using h

/-- Claim C9: `get_spendable_notes` is independent of its `amount`
parameter, and returns exactly the notes of the given address that are
unspent, unlocked and confirmed (`block_height` present). -/
theorem c9_get_spendable_notes_ignores_amount :
    ∀ (s : BalanceManager) (address : Address) (a1 a2 : Nat),
      s.get_spendable_notes address a1 = s.get_spendable_notes address a2 ∧
      ∀ n : Note, n ∈ s.get_spendable_notes address a1 ↔
        (n ∈ s.notes ∧ n.address = address ∧ n.spent = false ∧
          n.locked = false ∧ n.block_height.isSome = true) := by
  intro s address a1 a2
  refine ⟨rfl, ?_⟩
  intro n
  simp only [BalanceManager.get_spendable_notes, List.mem_filter,
    Bool.and_eq_true, beq_iff_eq, Bool.not_eq_true']
  tauto

/-- Embeds `OutPoint` from `keys.rs`. -/
structure OutPoint where
  transaction_id : String
  output_index : Nat
deriving DecidableEq

/-- Embeds `TransactionInput` from `keys.rs`. -/
structure TransactionInput where
  previous_output : OutPoint
  signature : List Nat
  public_key : List Nat
  amount : Nat
deriving DecidableEq

/-- Embeds `TransactionOutput` from `keys.rs`. -/
structure TransactionOutput where
  amount : Nat
  recipient_address : String
  script_pubkey : List Nat
deriving DecidableEq

/-- Embeds `TransactionBuilder` from `transaction.rs`. -/
structure TransactionBuilder where
  inputs : List TransactionInput
  outputs : List TransactionOutput
  fee : Nat
deriving DecidableEq

/-- Embeds `TransactionBuilder::total_input` (a `u64` iterator sum,
wrapping on overflow). -/
def TransactionBuilder.total_input (b : TransactionBuilder) : Nat :=
  b.inputs.foldl (fun a i => u64add a i.amount) 0

/-- Embeds `TransactionBuilder::total_output`. -/
def TransactionBuilder.total_output (b : TransactionBuilder) : Nat :=
  b.outputs.foldl (fun a o => u64add a o.amount) 0

/-- Embeds `TransactionBuilder::validate`. -/
def TransactionBuilder.validate (b : TransactionBuilder) : Except WalletError Unit :=
  if b.inputs.isEmpty then .error (.Transaction "No inputs provided")
  else if b.outputs.isEmpty then .error (.Transaction "No outputs provided")
  else
    let total_input := b.total_input
    let total_output := b.total_output
    let total_spent := u64add total_output b.fee
    if total_input < total_spent then
      .error (.InsufficientFunds total_spent total_input)
    else
      .ok ()

/-- Counterexample to claim C3 as stated: with one input of 5, one output
of `2^64 - 1` and fee 2, the `u64` sum `total_output + fee` wraps to 1, so
`validate` succeeds even though `total_input < total_output + fee` holds
in exact arithmetic. -/
theorem c3_counterexample_overflow :
    TransactionBuilder.validate
        ⟨[⟨⟨"", 0⟩, [], [], 5⟩], [⟨18446744073709551615, "", []⟩], 2⟩ = .ok () ∧
    TransactionBuilder.total_input
        ⟨[⟨⟨"", 0⟩, [], [], 5⟩], [⟨18446744073709551615, "", []⟩], 2⟩ <
      TransactionBuilder.total_output
        ⟨[⟨⟨"", 0⟩, [], [], 5⟩], [⟨18446744073709551615, "", []⟩], 2⟩ + 2 := by
  constructor
  · rfl
  · decide

/-- Claim C3 (amended: the claim holds whenever `total_output() + fee`
does not overflow `u64`): for a builder with non-empty inputs and outputs
such that `total_output + fee < 2^64`, `validate` fails with
`InsufficientFunds{required = total_output + fee, available = total_input}`
when `total_input < total_output + fee`, and succeeds otherwise. -/
theorem c3_validate_insufficient_funds_iff :
    ∀ b : TransactionBuilder, b.inputs ≠ [] → b.outputs ≠ [] →
      b.total_output + b.fee < U64 →
      (b.total_input < b.total_output + b.fee →
        b.validate =
          .error (.InsufficientFunds (b.total_output + b.fee) b.total_input)) ∧
      (b.total_output + b.fee ≤ b.total_input → b.validate = .ok ()) := by
  intro b h1 h2 hof
  have hi : b.inputs.isEmpty = false := by
    cases hb : b.inputs with
    | nil => exact absurd hb h1
    | cons x xs => simp [hb]
  have ho : b.outputs.isEmpty = false := by
    cases hb : b.outputs with
    | nil => exact absurd hb h2
    | cons x xs => simp [hb]
  have hmod : u64add b.total_output b.fee = b.total_output + b.fee :=
    Nat.mod_eq_of_lt hof
  constructor
  · intro hlt
    simp [TransactionBuilder.validate, hi, ho, hmod, hlt]
  · intro hge
    simp [TransactionBuilder.validate, hi, ho, hmod, Nat.not_lt.mpr hge]

/-- Witness for the amended C3 at two concrete builders: inputs of 5 with
output 3 and fee 1 validate, inputs of 5 with output 7 and fee 1 fail with
`InsufficientFunds{required = 8, available = 5}`. -/
theorem c3_validate_insufficient_funds_iff_witness :
    TransactionBuilder.validate ⟨[⟨⟨"", 0⟩, [], [], 5⟩], [⟨3, "", []⟩], 1⟩ = .ok () ∧
    TransactionBuilder.validate ⟨[⟨⟨"", 0⟩, [], [], 5⟩], [⟨7, "", []⟩], 1⟩ =
      .error (.InsufficientFunds 8 5) := by
  constructor
  · exact (c3_validate_insufficient_funds_iff
      ⟨[⟨⟨"", 0⟩, [], [], 5⟩], [⟨3, "", []⟩], 1⟩
      (by decide) (by decide) (by decide)).2 (by decide)
  · have h := (c3_validate_insufficient_funds_iff
      ⟨[⟨⟨"", 0⟩, [], [], 5⟩], [⟨7, "", []⟩], 1⟩
      (by decide) (by decide) (by decide)).1 (by decide)
    have e1 : TransactionBuilder.total_output
        ⟨[⟨⟨"", 0⟩, [], [], 5⟩], [⟨7, "", []⟩], 1⟩ +
        (⟨[⟨⟨"", 0⟩, [], [], 5⟩], [⟨7, "", []⟩], 1⟩ : TransactionBuilder).fee = 8 := by
      decide
    have e2 : TransactionBuilder.total_input
        ⟨[⟨⟨"", 0⟩, [], [], 5⟩], [⟨7, "", []⟩], 1⟩ = 5 := by decide
    rw [e1, e2] at h
    exact h

/-- Embeds `difficulty_to_target` from `mod.rs`: decode compact `bits`
(8-bit exponent, 24-bit mantissa) into a 32-byte big-endian target. -/
def difficulty_to_target (bits : Nat) : List Nat :=
  let exponent := (bits >>> 24) % 256
  let mantissa := bits % 16777216
  let target := List.replicate 32 0
  if exponent ≤ 3 then
    let tv := mantissa >>> (8 * (3 - exponent))
    ((target.set 29 ((tv >>> 16) % 256)).set 30 ((tv >>> 8) % 256)).set 31 (tv % 256)
  else if exponent < 32 then
    let sb := 32 - exponent
    ((target.set sb ((mantissa >>> 16) % 256)).set (sb + 1)
        ((mantissa >>> 8) % 256)).set (sb + 2) (mantissa % 256)
  else target

theorem getD_set_self : ∀ (l : List Nat) (i a : Nat), i < l.length →
    (l.set i a).getD i 0 = a
  | [], i, a, h => by simp at h
  | x :: xs, 0, a, _ => by simp
  | x :: xs, i + 1, a, h => by
      simp only [List.set_cons_succ, List.getD_cons_succ]
      exact getD_set_self xs i a (by simpa using h)

theorem getD_set_ne : ∀ (l : List Nat) (i j a : Nat), i ≠ j →
    (l.set i a).getD j 0 = l.getD j 0
  | [], _, _, _, _ => by simp
  | x :: xs, 0, 0, a, h => absurd rfl h
  | x :: xs, 0, j + 1, a, _ => by simp
  | x :: xs, i + 1, 0, a, _ => by simp
  | x :: xs, i + 1, j + 1, a, h => by
      simp only [List.set_cons_succ, List.getD_cons_succ]
      exact getD_set_ne xs i j a (fun hh => h (by omega))

theorem getD_replicate_zero : ∀ (n j : Nat), (List.replicate n 0).getD j 0 = 0
  | 0, _ => by simp
  | n + 1, 0 => by simp [List.replicate_succ]
  | n + 1, j + 1 => by
      simp only [List.replicate_succ, List.getD_cons_succ]
      exact getD_replicate_zero n j

/-- Claim C5: byte layout of the decoded compact-difficulty target.  With
`e = (bits >> 24) & 0xff` and `m = bits & 0x00ffffff`: if `e ≤ 3` the
three big-endian bytes of `m >> (8*(3-e))` sit at offsets 29, 30, 31 and
all other bytes are zero; if `3 < e < 32` the three mantissa bytes sit at
offsets `32-e`, `33-e`, `34-e` and all other bytes are zero; in particular
`bits = 0x1d00ffff` yields 0x00, 0xff, 0xff at offsets 3, 4, 5 and zeros
elsewhere. -/
theorem c5_difficulty_to_target_layout :
    ∀ bits e m : Nat, e = (bits >>> 24) % 256 → m = bits % 16777216 →
      ((e ≤ 3 → ∀ i, i < 32 →
        (difficulty_to_target bits).getD i 0 =
          (if i = 29 then ((m >>> (8 * (3 - e))) >>> 16) % 256
           else if i = 30 then ((m >>> (8 * (3 - e))) >>> 8) % 256
           else if i = 31 then (m >>> (8 * (3 - e))) % 256
           else 0)) ∧
       (3 < e → e < 32 → ∀ i, i < 32 →
        (difficulty_to_target bits).getD i 0 =
          (if i = 32 - e then (m >>> 16) % 256
           else if i = 33 - e then (m >>> 8) % 256
           else if i = 34 - e then m % 256
           else 0))) ∧
      difficulty_to_target 486604799 =
        [0, 0, 0, 0, 255, 255, 0, 0, 0, 0, 0, 0, 0, 0, 0, 0,
         0, 0, 0, 0, 0, 0, 0, 0, 0, 0, 0, 0, 0, 0, 0, 0] := by
  intro bits e m he hm
  subst he; subst hm
  constructor
  · constructor
    · intro he3 i _
      simp only [difficulty_to_target]
      rw [if_pos he3]
      by_cases h29 : i = 29
      · subst h29
        rw [getD_set_ne _ 31 29 _ (by omega), getD_set_ne _ 30 29 _ (by omega),
          getD_set_self _ 29 _ (by simp)]
        simp
      · by_cases h30 : i = 30
        · subst h30
          rw [getD_set_ne _ 31 30 _ (by omega),
            getD_set_self _ 30 _ (by simp)]
          simp
        · by_cases h31 : i = 31
          · subst h31
            rw [getD_set_self _ 31 _ (by simp)]
            simp
          · rw [getD_set_ne _ 31 i _ (by omega), getD_set_ne _ 30 i _ (by omega),
              getD_set_ne _ 29 i _ (by omega), getD_replicate_zero]
            simp [h29, h30, h31]
    · intro he3 he32 i _
      simp only [difficulty_to_target]
      rw [if_neg (by omega), if_pos he32]
      have e33 : 33 - ((bits >>> 24) % 256) = (32 - ((bits >>> 24) % 256)) + 1 := by
        omega
      have e34 : 34 - ((bits >>> 24) % 256) = (32 - ((bits >>> 24) % 256)) + 2 := by
        omega
      by_cases hb0 : i = 32 - ((bits >>> 24) % 256)
      · subst hb0
        rw [getD_set_ne _ _ _ _ (by omega), getD_set_ne _ _ _ _ (by omega),
          getD_set_self _ _ _ (by simp; omega)]
        simp
      · by_cases hb1 : i = 33 - ((bits >>> 24) % 256)
        · rw [hb1, e33]
          rw [getD_set_ne _ _ _ _ (by omega),
            getD_set_self _ _ _ (by simp; omega)]
          rw [if_neg (by omega), if_pos (by omega)]
        · by_cases hb2 : i = 34 - ((bits >>> 24) % 256)
          · rw [hb2, e34]
            rw [getD_set_self _ _ _ (by simp; omega)]
            rw [if_neg (by omega), if_neg (by omega), if_pos (by omega)]
          · rw [getD_set_ne _ _ _ _ (by omega), getD_set_ne _ _ _ _ (by omega),
              getD_set_ne _ _ _ _ (by omega), getD_replicate_zero]
            rw [if_neg hb0, if_neg hb1, if_neg hb2]
  · rfl

/-- Witness for C5: instantiated at `bits = 0x1d00ffff` (exponent 29),
byte 3 of the target is `0x00`, byte 4 is `0xff` and byte 0 is zero. -/
theorem c5_difficulty_to_target_layout_witness :
    (difficulty_to_target 486604799).getD 3 0 = 0 ∧
    (difficulty_to_target 486604799).getD 4 0 = 255 ∧
    (difficulty_to_target 486604799).getD 0 0 = 0 := by
  have h := (c5_difficulty_to_target_layout 486604799
    ((486604799 >>> 24) % 256) (486604799 % 16777216) rfl rfl).1.2
    (by decide) (by decide)
  refine ⟨(h 3 (by decide)).trans (by decide),
    (h 4 (by decide)).trans (by decide),
    (h 0 (by decide)).trans (by decide)⟩

/-- Little-endian byte encoding of a machine integer of `k` bytes
(`to_le_bytes` in the source). -/
def leBytes (k n : Nat) : List Nat :=
  (List.range k).map (fun i => (n >>> (8 * i)) % 256)

/-- Embeds `BlockHeader` from `mod.rs`. -/
structure BlockHeader where
  version : Nat
  previous_hash : List Nat
  merkle_root : List Nat
  timestamp : Nat
  bits : Nat
  nonce : Nat
  height : Nat

/-- The byte sequence hashed by `BlockHeader::hash`. -/
def BlockHeader.headerBytes (h : BlockHeader) : List Nat :=
  leBytes 4 h.version ++ h.previous_hash ++ h.merkle_root ++
    leBytes 8 h.timestamp ++ leBytes 4 h.bits ++ leBytes 8 h.nonce ++
    leBytes 8 h.height

/-- Embeds `BlockHeader::hash`, with SHA-256 abstracted as `sha`. -/
def BlockHeader.hash (sha : List Nat → List Nat) (h : BlockHeader) : List Nat :=
  sha h.headerBytes

/-- The byte-by-byte big-endian comparison loop of
`BlockHeader::meets_difficulty`: at the first differing byte, smaller hash
wins; all bytes equal counts as meeting the target. -/
def hashMeetsTarget : List Nat → List Nat → Bool
  | h :: hs, t :: ts =>
      if h < t then true
      else if t < h then false
      else hashMeetsTarget hs ts
  | _, _ => true

/-- Embeds `BlockHeader::meets_difficulty`. -/
def BlockHeader.meets_difficulty (sha : List Nat → List Nat) (h : BlockHeader) :
    Bool :=
  hashMeetsTarget (h.hash sha) (difficulty_to_target h.bits)

theorem hashMeetsTarget_replicate_zero :
    ∀ (l : List Nat) (n : Nat), l.length = n →
      (hashMeetsTarget l (List.replicate n 0) = true ↔
        l = List.replicate n 0) := by
  intro l
  induction l with
  | nil =>
      intro n hn
      simp [← hn, hashMeetsTarget]
  | cons x xs ih =>
      intro n hn
      cases n with
      | zero => simp at hn
      | succ m =>
          simp only [List.replicate_succ, hashMeetsTarget]
          rw [if_neg (by omega)]
          cases x with
          | zero =>
              simp only [if_neg (by omega : ¬ 0 < 0)]
              have := ih m (by simpa using hn)
              simpa using this
          | succ k =>
              rw [if_pos (by omega)]
              simp

/-- Claim C10: whenever the exponent byte of `bits` is 32 or more,
`difficulty_to_target` returns the all-zero 32-byte target, and for such
`bits` a header meets the difficulty iff its (32-byte) hash is exactly 32
zero bytes. -/
theorem c10_exponent_ge_32_zero_target :
    ∀ bits : Nat, 32 ≤ (bits >>> 24) % 256 →
      difficulty_to_target bits = List.replicate 32 0 ∧
      ∀ (sha : List Nat → List Nat) (h : BlockHeader), h.bits = bits →
        (BlockHeader.hash sha h).length = 32 →
        (BlockHeader.meets_difficulty sha h = true ↔
          BlockHeader.hash sha h = List.replicate 32 0) := by
  intro bits hexp
  have htarget : difficulty_to_target bits = List.replicate 32 0 := by
    simp only [difficulty_to_target]
    rw [if_neg (by omega), if_neg (by omega)]
  refine ⟨htarget, ?_⟩
  intro sha h hb hlen
  unfold BlockHeader.meets_difficulty
  rw [hb, htarget]
  exact hashMeetsTarget_replicate_zero _ 32 hlen

/-- Witness for C10 at `bits = 0x20000000` (exponent 32) and a header
whose hash function returns 32 zero bytes: the target is all-zero and the
header meets the difficulty exactly because its hash is all-zero. -/
theorem c10_exponent_ge_32_zero_target_witness :
    difficulty_to_target 536870912 = List.replicate 32 0 ∧
    (BlockHeader.meets_difficulty (fun _ => List.replicate 32 0)
        ⟨1, List.replicate 32 0, List.replicate 32 0, 0, 536870912, 0, 0⟩ = true ↔
      BlockHeader.hash (fun _ => List.replicate 32 0)
        ⟨1, List.replicate 32 0, List.replicate 32 0, 0, 536870912, 0, 0⟩ =
        List.replicate 32 0) := by
  have h := c10_exponent_ge_32_zero_target 536870912 (by decide)
  exact ⟨h.1, h.2 (fun _ => List.replicate 32 0)
    ⟨1, List.replicate 32 0, List.replicate 32 0, 0, 536870912, 0, 0⟩ rfl
    (by simp [BlockHeader.hash])⟩

/-- Embeds `NockchainTransaction` from `keys.rs`. -/
structure NockchainTransaction where
  transaction_data : List Nat
  signatures : List (List Nat)
  hash : List Nat
  timestamp : Nat
  nock_code : Option (List Nat)
  zk_proof : Option (List Nat)
  inputs : List TransactionInput
  outputs : List TransactionOutput
  fee : Nat

/-- Truncate or zero-pad a transaction hash to 32 bytes (the per-leaf
copy loop of `calculate_merkle_root`). -/
def padTrunc32 (h : List Nat) : List Nat :=
  h.take 32 ++ List.replicate (32 - h.length) 0

/-- One level of the Merkle fold: `chunks(2)`, hashing `left ‖ right`,
with a lone last element hashed against itself. -/
def merkleLevel (sha : List Nat → List Nat) : List (List Nat) → List (List Nat)
  | [] => []
  | [x] => [sha (x ++ x)]
  | x :: y :: rest => sha (x ++ y) :: merkleLevel sha rest

theorem merkleLevel_length (sha : List Nat → List Nat) :
    ∀ l, (merkleLevel sha l).length = (l.length + 1) / 2
  | [] => by simp [merkleLevel]
  | [x] => by simp [merkleLevel]
  | x :: y :: rest => by
      simp only [merkleLevel, List.length_cons]
      rw [merkleLevel_length sha rest]
      omega

/-- The `while hashes.len() > 1` loop of `calculate_merkle_root`,
returning `hashes[0]` once a single hash remains. -/
def merkleFold (sha : List Nat → List Nat) (l : List (List Nat)) : List Nat :=
  if h : l.length ≤ 1 then l.headD (List.replicate 32 0)
  else merkleFold sha (merkleLevel sha l)
termination_by l.length
decreasing_by
  rw [merkleLevel_length]; omega

/-- Embeds `calculate_merkle_root` from `mod.rs`, SHA-256 abstracted. -/
def calculate_merkle_root (sha : List Nat → List Nat)
    (transactions : List NockchainTransaction) : List Nat :=
  if transactions.isEmpty then List.replicate 32 0
  else merkleFold sha (transactions.map (fun tx => padTrunc32 tx.hash))

/-- Consecutive pairs of a list (dropping a trailing odd element). -/
def toPairs {α : Type} : List α → List (α × α)
  | [] => []
  | [_] => []
  | a :: b :: rest => (a, b) :: toPairs rest

theorem toPairs_length {α : Type} : ∀ l : List α, (toPairs l).length = l.length / 2
  | [] => by simp only [toPairs, List.length_nil]
  | [_] => by simp only [toPairs, List.length_nil, List.length_cons]
  | a :: b :: rest => by
      simp only [toPairs, List.length_cons]
      rw [toPairs_length rest]
      omega

/-- Formalised from the claim's wording: one folding level pairs the
hashes up, duplicating the last element of a level with an odd count as
its own pair partner, and hashes each pair `left ‖ right`. -/
def specLevel (sha : List Nat → List Nat) (l : List (List Nat)) :
    List (List Nat) :=
  (toPairs (if l.length % 2 = 1 then l ++ [l.getLastD []] else l)).map
    (fun p => sha (p.1 ++ p.2))

theorem specLevel_length (sha : List Nat → List Nat) (l : List (List Nat)) :
    (specLevel sha l).length = (l.length + 1) / 2 := by
  unfold specLevel
  by_cases h : l.length % 2 = 1
  · rw [if_pos h, List.length_map, toPairs_length, List.length_append]
    simp only [List.length_cons, List.length_nil]
  · rw [if_neg h, List.length_map, toPairs_length]
    omega

/-- Formalised from the claim's wording: repeat the pairwise folding
level until one hash remains. -/
def specMerkle (sha : List Nat → List Nat) : List (List Nat) → List Nat
  | [] => List.replicate 32 0
  | [x] => x
  | x :: y :: rest => specMerkle sha (specLevel sha (x :: y :: rest))
termination_by l => l.length
decreasing_by
  simp only [specLevel_length, List.length_cons]
  omega

theorem specLevel_cons_cons (sha : List Nat → List Nat) (x y : List Nat)
    (rest : List (List Nat)) :
    specLevel sha (x :: y :: rest) = sha (x ++ y) :: specLevel sha rest := by
  unfold specLevel
  by_cases h : rest.length % 2 = 1
  · have h2 : (x :: y :: rest).length % 2 = 1 := by
      simp only [List.length_cons]; omega
    rw [if_pos h2, if_pos h]
    have hne : rest ≠ [] := by
      intro hc; subst hc; simp at h
    obtain ⟨a, t, rfl⟩ : ∃ a t, rest = a :: t := by
      cases rest with
      | nil => exact absurd rfl hne
      | cons a t => exact ⟨a, t, rfl⟩
    simp [toPairs, List.getLastD]
  · have h2 : ¬ (x :: y :: rest).length % 2 = 1 := by
      simp only [List.length_cons]; omega
    rw [if_neg h2, if_neg h]
    simp [toPairs]

theorem merkleLevel_eq_specLevel (sha : List Nat → List Nat) :
    ∀ l, merkleLevel sha l = specLevel sha l
  | [] => rfl
  | [x] => by
      simp [merkleLevel, specLevel, toPairs, List.getLastD]
  | x :: y :: rest => by
      rw [specLevel_cons_cons]
      simp only [merkleLevel]
      rw [merkleLevel_eq_specLevel sha rest]

theorem merkleFold_eq_specMerkle (sha : List Nat → List Nat) :
    ∀ l, merkleFold sha l = specMerkle sha l
  | [] => by rw [merkleFold]; simp [specMerkle]
  | [x] => by rw [merkleFold]; simp [specMerkle]
  | x :: y :: rest => by
      rw [merkleFold, dif_neg (by simp : ¬ (x :: y :: rest).length ≤ 1)]
      rw [merkleLevel_eq_specLevel]
      rw [show specMerkle sha (x :: y :: rest) =
            specMerkle sha (specLevel sha (x :: y :: rest)) from by
        rw [specMerkle]]
      exact merkleFold_eq_specMerkle sha (specLevel sha (x :: y :: rest))
termination_by l => l.length
decreasing_by
  simp only [specLevel_length, List.length_cons]
  omega

/-- The claim's description of the whole root computation, formalised
from its wording. -/
def specMerkleRoot (sha : List Nat → List Nat) :
    List NockchainTransaction → List Nat
  | [] => List.replicate 32 0
  | t :: ts => specMerkle sha ((t :: ts).map (fun tx => padTrunc32 tx.hash))

/-- Claim C4: the Merkle root of an empty transaction sequence is 32 zero
bytes; of a single transaction it is that transaction's hash
truncated/zero-padded to 32 bytes; in general it equals the repeated
pairwise `sha(left ‖ right)` fold that duplicates the last element of an
odd level and stops when one hash remains. -/
theorem c4_calculate_merkle_root_structure :
    ∀ (sha : List Nat → List Nat) (transactions : List NockchainTransaction),
      (transactions = [] →
        calculate_merkle_root sha transactions = List.replicate 32 0) ∧
      (∀ tx, transactions = [tx] →
        calculate_merkle_root sha transactions = padTrunc32 tx.hash) ∧
      calculate_merkle_root sha transactions = specMerkleRoot sha transactions := by
  intro sha transactions
  refine ⟨?_, ?_, ?_⟩
  · intro h; subst h; rfl
  · intro tx h; subst h
    simp only [calculate_merkle_root, List.isEmpty_cons, Bool.false_eq_true,
      if_false, List.map_cons, List.map_nil]
    rw [merkleFold, dif_pos (by simp)]
    rfl
  · cases transactions with
    | nil => rfl
    | cons t ts =>
        simp only [calculate_merkle_root, specMerkleRoot, List.isEmpty_cons,
          Bool.false_eq_true, if_false]
        exact merkleFold_eq_specMerkle sha _

/-- Witness for C4 at a constant hash function: the empty sequence gives
32 zero bytes and a single transaction with hash `[1, 2, 3]` gives that
hash zero-padded to 32 bytes. -/
theorem c4_calculate_merkle_root_structure_witness :
    calculate_merkle_root (fun _ => List.replicate 32 7) [] =
      List.replicate 32 0 ∧
    calculate_merkle_root (fun _ => List.replicate 32 7)
        [⟨[], [], [1, 2, 3], 0, none, none, [], [], 0⟩] =
      padTrunc32 [1, 2, 3] := by
  refine ⟨(c4_calculate_merkle_root_structure (fun _ => List.replicate 32 7) []).1
    rfl, ?_⟩
  exact (c4_calculate_merkle_root_structure (fun _ => List.replicate 32 7)
    [⟨[], [], [1, 2, 3], 0, none, none, [], [], 0⟩]).2.1
    ⟨[], [], [1, 2, 3], 0, none, none, [], [], 0⟩ rfl

/-- Embeds `TransactionStatus` from `mod.rs`. -/
inductive TransactionStatus where
  | Pending
  | Confirmed (block_height : Nat)
  | Failed (reason : String)
deriving DecidableEq

/-- Embeds the ledger-level `Transaction` record from `mod.rs`
(timestamps modelled as `Nat`). -/
structure Transaction where
  id : String
  status : TransactionStatus
  amount : Nat
  fee : Nat
  from_address : Option Address
  to_address : Option Address
  created_at : Nat
  confirmed_at : Option Nat
  is_outgoing : Bool
deriving DecidableEq

/-- Embeds `TransactionManager` from `transaction.rs`. -/
structure TransactionManager where
  pending_transactions : List Transaction
  confirmed_transactions : List Transaction
deriving DecidableEq

/-- `Iterator::position` followed by `Vec::remove`: locate the first
element satisfying `p`, returning it and the list without it. -/
def removeFirstBy {α : Type} (p : α → Bool) : List α → Option (α × List α)
  | [] => none
  | x :: xs =>
      if p x then some (x, xs)
      else (removeFirstBy p xs).map (fun r => (r.1, x :: r.2))

/-- Embeds `TransactionManager::confirm_transaction`; `Utc::now()` is
passed in as `now`. -/
def TransactionManager.confirm_transaction (s : TransactionManager)
    (tx_id : String) (block_height now : Nat) :
    TransactionManager × Except WalletError Unit :=
  match removeFirstBy (fun tx => tx.id == tx_id) s.pending_transactions with
  | none => (s, .error (.Transaction s!"Transaction {tx_id} not found"))
  | some (tx, rest) =>
      (⟨rest,
        s.confirmed_transactions ++
          [{ tx with status := .Confirmed block_height,
                     confirmed_at := some now }]⟩,
       .ok ())

theorem removeFirstBy_eq_none {α : Type} (p : α → Bool) :
    ∀ l : List α, (∀ x ∈ l, p x = false) → removeFirstBy p l = none := by
  intro l
  induction l with
  | nil => intro _; rfl
  | cons x xs ih =>
      intro h
      simp only [removeFirstBy, h x (by simp), if_false, Bool.false_eq_true]
      rw [ih (fun y hy => h y (by simp [hy]))]
      rfl

theorem removeFirstBy_split {α : Type} (p : α → Bool) :
    ∀ (l1 : List α) (x : α) (l2 : List α), (∀ y ∈ l1, p y = false) →
      p x = true → removeFirstBy p (l1 ++ x :: l2) = some (x, l1 ++ l2) := by
  intro l1
  induction l1 with
  | nil => intro x l2 _ hx; simp [removeFirstBy, hx]
  | cons y ys ih =>
      intro x l2 hneg hx
      simp only [List.cons_append, removeFirstBy, hneg y (by simp),
        Bool.false_eq_true, if_false]
      rw [List.append_eq, ih x l2 (fun z hz => hneg z (by simp [hz])) hx]
      rfl

/-- Claim C8: `confirm_transaction` with a tx id present in the pending
list removes the first matching record, appends it to the confirmed list
with status `Confirmed{block_height}` and `confirmed_at` set, leaving all
other records (and their order) unchanged; with an absent tx id it fails
with a `Transaction` error and changes nothing. -/
theorem c8_confirm_transaction_moves_or_fails :
    ∀ (s : TransactionManager) (tx_id : String) (block_height now : Nat),
      (∀ (l1 : List Transaction) (tx : Transaction) (l2 : List Transaction),
        s.pending_transactions = l1 ++ tx :: l2 →
        (∀ y ∈ l1, y.id ≠ tx_id) → tx.id = tx_id →
        s.confirm_transaction tx_id block_height now =
          (⟨l1 ++ l2,
            s.confirmed_transactions ++
              [{ tx with status := .Confirmed block_height,
                         confirmed_at := some now }]⟩,
           .ok ())) ∧
      ((∀ tx ∈ s.pending_transactions, tx.id ≠ tx_id) →
        s.confirm_transaction tx_id block_height now =
          (s, .error (.Transaction s!"Transaction {tx_id} not found"))) := by
  intro s tx_id block_height now
  constructor
  · intro l1 tx l2 hsplit hneg hid
    have h := removeFirstBy_split (fun tx => tx.id == tx_id) l1 tx l2
      (fun y hy => by simpa using hneg y hy) (by simpa using hid)
    simp only [TransactionManager.confirm_transaction, hsplit, h]
  · intro habs
    have h := removeFirstBy_eq_none (fun tx => tx.id == tx_id)
      s.pending_transactions (fun y hy => by simpa using habs y hy)
    simp only [TransactionManager.confirm_transaction, h]

/-- Witness for C8 at a one-element pending list: confirming the present
id `"a"` moves the record with status `Confirmed{7}` and
`confirmed_at = some 42`; confirming the absent id `"b"` fails and
leaves the state unchanged. -/
theorem c8_confirm_transaction_moves_or_fails_witness :
    (TransactionManager.confirm_transaction
        ⟨[⟨"a", .Pending, 5, 1, none, none, 0, none, true⟩], []⟩ "a" 7 42 =
      (⟨[], [⟨"a", .Confirmed 7, 5, 1, none, none, 0, some 42, true⟩]⟩,
       .ok ())) ∧
    (TransactionManager.confirm_transaction
        ⟨[⟨"a", .Pending, 5, 1, none, none, 0, none, true⟩], []⟩ "b" 7 42 =
      (⟨[⟨"a", .Pending, 5, 1, none, none, 0, none, true⟩], []⟩,
       .error (.Transaction "Transaction b not found"))) := by
  constructor
  · have h := (c8_confirm_transaction_moves_or_fails
      ⟨[⟨"a", .Pending, 5, 1, none, none, 0, none, true⟩], []⟩ "a" 7 42).1
      [] ⟨"a", .Pending, 5, 1, none, none, 0, none, true⟩ [] rfl
      (by simp) rfl
    simpa using h
  · have h := (c8_confirm_transaction_moves_or_fails
      ⟨[⟨"a", .Pending, 5, 1, none, none, 0, none, true⟩], []⟩ "b" 7 42).2
      (by simp)
    simpa using h

/-- Embeds `NockchainKeyPair` from `keys.rs` (key material as raw
bytes). -/
structure NockchainKeyPair where
  signing_key : List Nat
  verifying_key : List Nat
  address : Address
  nockchain_address : Option String
deriving DecidableEq

/-- Embeds `NockchainStoredKeyData` from `keys.rs`. -/
structure NockchainStoredKeyData where
  name : String
  public_key : List Nat
  encrypted_secret_key : List Nat
  address : String
  nockchain_address : Option String
  nock_noun : Option (List Nat)
  created_at : Nat
deriving DecidableEq

/-- Embeds `NockchainKeyManager` from `keys.rs`. -/
structure NockchainKeyManager where
  keys : List (String × NockchainKeyPair)
  encrypted_storage : List (String × NockchainStoredKeyData)
deriving DecidableEq

/-- `HashMap::insert` on the key registry. -/
def insertKey (l : List (String × NockchainKeyPair)) (name : String)
    (kp : NockchainKeyPair) : List (String × NockchainKeyPair) :=
  if l.any (fun p => p.1 == name) then
    l.map (fun p => if p.1 == name then (p.1, kp) else p)
  else
    l ++ [(name, kp)]

/-- `HashMap::get` on the key registry. -/
def lookupKey (s : NockchainKeyManager) (name : String) :
    Option NockchainKeyPair :=
  (s.keys.find? (fun p => p.1 == name)).map (fun p => p.2)

/-- Embeds `NockchainKeyManager::generate_key`.  The keypair produced by
`NockchainKeyPair::generate()` (which draws from `OsRng`) is passed in as
`fresh`.  Note: the source performs no membership check before
`self.keys.insert(name, keypair)`. -/
def NockchainKeyManager.generate_key (s : NockchainKeyManager) (name : String)
    (fresh : NockchainKeyPair) : NockchainKeyManager × Except WalletError Address :=
  ({ s with keys := insertKey s.keys name fresh }, .ok fresh.address)

/-- Claim C6 fails on the code: starting from a manager whose registry
already holds the name `"default"`, `generate_key "default"` does not
fail with `KeyExists`; it succeeds, returns the new keypair's address and
silently overwrites the stored keypair. -/
theorem c6_generate_key_overwrites_existing_name :
    lookupKey ⟨[("default",
        ⟨List.replicate 32 0, List.replicate 32 0, ⟨List.replicate 32 0⟩, none⟩)],
        []⟩ "default" =
      some ⟨List.replicate 32 0, List.replicate 32 0, ⟨List.replicate 32 0⟩, none⟩ ∧
    (NockchainKeyManager.generate_key
        ⟨[("default",
          ⟨List.replicate 32 0, List.replicate 32 0, ⟨List.replicate 32 0⟩, none⟩)],
          []⟩ "default"
        ⟨List.replicate 32 1, List.replicate 32 1, ⟨List.replicate 32 1⟩, none⟩).2 =
      .ok ⟨List.replicate 32 1⟩ ∧
    (NockchainKeyManager.generate_key
        ⟨[("default",
          ⟨List.replicate 32 0, List.replicate 32 0, ⟨List.replicate 32 0⟩, none⟩)],
          []⟩ "default"
        ⟨List.replicate 32 1, List.replicate 32 1, ⟨List.replicate 32 1⟩, none⟩).1.keys =
      [("default",
        ⟨List.replicate 32 1, List.replicate 32 1, ⟨List.replicate 32 1⟩, none⟩)] := by
  refine ⟨rfl, rfl, ?_⟩
  decide

/-- The Bitcoin base58 alphabet used by the `bs58` crate
(digits and letters minus `0`, `O`, `I`, `l`). -/
def base58Alphabet : List Char :=
  ['1', '2', '3', '4', '5', '6', '7', '8', '9', 'A', 'B', 'C', 'D', 'E', 'F',
   'G', 'H', 'J', 'K', 'L', 'M', 'N', 'P', 'Q', 'R', 'S', 'T', 'U', 'V', 'W',
   'X', 'Y', 'Z', 'a', 'b', 'c', 'd', 'e', 'f', 'g', 'h', 'i', 'j', 'k', 'm',
   'n', 'o', 'p', 'q', 'r', 's', 't', 'u', 'v', 'w', 'x', 'y', 'z']

/-- Position of a character in a character list. -/
def charIndex (c : Char) : List Char → Option Nat
  | [] => none
  | d :: ds => if c = d then some 0 else (charIndex c ds).map (fun i => i + 1)

/-- Digit value of a base58 character (`None` for characters outside the
alphabet). -/
def b58CharVal (c : Char) : Option Nat := charIndex c base58Alphabet

/-- Base58 encoding of a byte string, as performed by `bs58::encode`:
each leading zero byte becomes a `'1'`, the remaining bytes are read as a
big-endian number and written in base 58, most significant digit
first. -/
def bs58_encode (bytes : List Nat) : List Char :=
  List.replicate ((bytes.takeWhile (fun b => b == 0)).length) '1' ++
    ((Nat.digits 58 (bytes.foldl (fun a b => a * 256 + b) 0)).map
      (fun d => base58Alphabet.getD d '1')).reverse

/-- Base58 decoding of a character string, as performed by
`bs58::decode`: fails if any character is outside the alphabet; otherwise
each leading `'1'` becomes a zero byte and the whole string is read as a
base-58 number and written out in base 256, most significant byte
first. -/
def bs58_decode (s : List Char) : Option (List Nat) :=
  if s.all (fun c => (b58CharVal c).isSome) then
    some (List.replicate ((s.takeWhile (fun c => c == '1')).length) 0 ++
      (Nat.digits 256
        (s.foldl (fun a c => a * 58 + (b58CharVal c).getD 0) 0)).reverse)
  else none

/-- Embeds `Address::to_string` (strings as character lists). -/
def Address.to_string (a : Address) : List Char := bs58_encode a.public_key

/-- Embeds `Address::from_string`. -/
def Address.from_string (s : List Char) : Except WalletError Address :=
  match bs58_decode s with
  | none => .error (.InvalidAddress "Base58 decode error")
  | some decoded =>
      if decoded.length ≠ 32 then
        .error (.InvalidAddress "Invalid address length")
      else
        .ok ⟨decoded⟩

theorem b58CharVal_embed : ∀ d : Nat, d < 58 →
    b58CharVal (base58Alphabet.getD d '1') = some d := by decide

theorem b58_embed_ne_one : ∀ d : Nat, d < 58 → d ≠ 0 →
    ((base58Alphabet.getD d '1') == '1') = false := by decide

theorem foldl_be {α : Type} (B : Nat) (v : α → Nat) :
    ∀ l : List α,
      l.reverse.foldl (fun a x => a * B + v x) 0 = Nat.ofDigits B (l.map v) := by
  intro l
  induction l with
  | nil => simp [Nat.ofDigits_nil]
  | cons d t ih =>
      rw [List.reverse_cons, List.foldl_append, ih]
      simp only [List.map_cons, Nat.ofDigits_cons, List.foldl_cons,
        List.foldl_nil]
      ring

theorem foldl_mul_add_replicate_zero {α : Type} (B : Nat) (v : α → Nat)
    (c : α) (hvc : v c = 0) :
    ∀ z : Nat, (List.replicate z c).foldl (fun a x => a * B + v x) 0 = 0 := by
  intro z
  induction z with
  | zero => rfl
  | succ m ih =>
      rw [List.replicate_succ, List.foldl_cons]
      simpa [hvc] using ih

theorem takeWhile_append_all {α : Type} (p : α → Bool) :
    ∀ l1 l2 : List α, (∀ x ∈ l1, p x = true) →
      (l1 ++ l2).takeWhile p = l1 ++ l2.takeWhile p := by
  intro l1
  induction l1 with
  | nil => intro l2 _; rfl
  | cons x xs ih =>
      intro l2 h
      rw [List.cons_append, List.takeWhile_cons_of_pos (h x (by simp)),
        ih l2 (fun y hy => h y (by simp [hy])), List.cons_append]

theorem foldl_be_val (B : Nat) (l : List Nat) :
    l.foldl (fun a x => a * B + x) 0 = Nat.ofDigits B l.reverse := by
  have h := foldl_be B (fun x => x) l.reverse
  rw [List.reverse_reverse] at h
  rw [h, List.map_id']

theorem encode_chars_valid (bytes : List Nat) :
    (bs58_encode bytes).all (fun c => (b58CharVal c).isSome) = true := by
  rw [List.all_eq_true]
  intro c hc
  rw [bs58_encode] at hc
  rcases List.mem_append.1 hc with h1 | h1
  · rw [List.eq_of_mem_replicate h1]
    rfl
  · rw [List.mem_reverse, List.mem_map] at h1
    obtain ⟨d, hd, rfl⟩ := h1
    rw [b58CharVal_embed d (Nat.digits_lt_base (by norm_num) hd)]
    rfl

theorem digitChars_takeWhile_one (ds : List Nat) (hlt : ∀ d ∈ ds, d < 58)
    (hlast : ∀ dl, ds.getLast? = some dl → dl ≠ 0) :
    ((ds.map (fun d => base58Alphabet.getD d '1')).reverse).takeWhile
      (fun c => c == '1') = [] := by
  cases hcons : (ds.map (fun d => base58Alphabet.getD d '1')).reverse with
  | nil => rfl
  | cons c cs =>
      have hh : ((ds.map (fun d => base58Alphabet.getD d '1')).reverse).head? =
          some c := by rw [hcons]; rfl
      rw [List.head?_reverse, List.getLast?_map] at hh
      cases hgl : ds.getLast? with
      | none => rw [hgl] at hh; cases hh
      | some dl =>
          rw [hgl] at hh
          simp only [Option.map_some', Option.some.injEq] at hh
          have hne : ds ≠ [] := by
            intro hnil; rw [hnil] at hgl; cases hgl
          have h2 := List.getLast?_eq_getLast ds hne
          have h3 := h2.symm.trans hgl
          injection h3 with h4
          have hdl_mem : dl ∈ ds := h4 ▸ List.getLast_mem hne
          apply List.takeWhile_cons_of_neg
          rw [← hh]
          rw [b58_embed_ne_one dl (hlt dl hdl_mem) (hlast dl hgl)]
          simp

theorem digits_be_inverse (l : List Nat) (hlt : ∀ b ∈ l, b < 256)
    (hhead : ∀ x, l.head? = some x → x ≠ 0) :
    (Nat.digits 256 (Nat.ofDigits 256 l.reverse)).reverse = l := by
  cases l with
  | nil => simp [Nat.ofDigits_nil, Nat.digits_zero]
  | cons x xs =>
      have hgl : ∀ h : ((x :: xs).reverse) ≠ [],
          ((x :: xs).reverse).getLast h ≠ 0 := by
        intro hne
        have h2 := List.getLast?_eq_getLast ((x :: xs).reverse) hne
        rw [List.getLast?_reverse, List.head?_cons] at h2
        injection h2 with h3
        rw [← h3]
        exact hhead x rfl
      rw [Nat.digits_ofDigits 256 (by norm_num) ((x :: xs).reverse)
        (fun d hd => hlt d (List.mem_reverse.1 hd)) hgl,
        List.reverse_reverse]

/-- Round trip for inputs split into leading zeros and a remainder with a
non-zero first byte. -/
theorem bs58_decode_encode_split (zlen : Nat) (rest : List Nat)
    (hhead : ∀ x, rest.head? = some x → x ≠ 0)
    (hlt : ∀ b ∈ rest, b < 256) :
    bs58_decode (bs58_encode (List.replicate zlen 0 ++ rest)) =
      some (List.replicate zlen 0 ++ rest) := by
  have htw0 : rest.takeWhile (fun b => b == 0) = [] := by
    cases hr : rest with
    | nil => rfl
    | cons x xs =>
        apply List.takeWhile_cons_of_neg
        have hx := hhead x (by rw [hr]; rfl)
        simp [hx]
  have htw : ((List.replicate zlen 0 ++ rest).takeWhile (fun b => b == 0)) =
      List.replicate zlen 0 := by
    rw [takeWhile_append_all _ _ _
      (fun x hx => by rw [List.eq_of_mem_replicate hx]; rfl), htw0,
      List.append_nil]
  have hval : (List.replicate zlen 0 ++ rest).foldl (fun a b => a * 256 + b) 0
      = Nat.ofDigits 256 rest.reverse := by
    rw [List.foldl_append, foldl_mul_add_replicate_zero 256 (fun b => b) 0 rfl,
      foldl_be_val]
  have hds_lt : ∀ d ∈ Nat.digits 58 (Nat.ofDigits 256 rest.reverse), d < 58 :=
    fun d hd => Nat.digits_lt_base (by norm_num) hd
  have hds_last : ∀ dl,
      (Nat.digits 58 (Nat.ofDigits 256 rest.reverse)).getLast? = some dl →
        dl ≠ 0 := by
    intro dl hgl
    by_cases h0 : Nat.ofDigits 256 rest.reverse = 0
    · rw [h0, Nat.digits_zero] at hgl
      cases hgl
    · have h2 := List.getLast?_eq_getLast
        (Nat.digits 58 (Nat.ofDigits 256 rest.reverse))
        (Nat.digits_ne_nil_iff_ne_zero.mpr h0)
      have h3 := h2.symm.trans hgl
      injection h3 with h4
      rw [← h4]
      exact Nat.getLast_digit_ne_zero 58 h0
  have henc : bs58_encode (List.replicate zlen 0 ++ rest) =
      List.replicate zlen '1' ++
        ((Nat.digits 58 (Nat.ofDigits 256 rest.reverse)).map
          (fun d => base58Alphabet.getD d '1')).reverse := by
    rw [bs58_encode, htw, hval, List.length_replicate]
  have hvalid := encode_chars_valid (List.replicate zlen 0 ++ rest)
  unfold bs58_decode
  rw [if_pos hvalid, henc]
  have h1 : ((List.replicate zlen '1' ++
      ((Nat.digits 58 (Nat.ofDigits 256 rest.reverse)).map
        (fun d => base58Alphabet.getD d '1')).reverse).takeWhile
      (fun c => c == '1')).length = zlen := by
    rw [takeWhile_append_all _ _ _
      (fun x hx => by rw [List.eq_of_mem_replicate hx]; rfl),
      digitChars_takeWhile_one _ hds_lt hds_last, List.append_nil,
      List.length_replicate]
  have h2 : (List.replicate zlen '1' ++
      ((Nat.digits 58 (Nat.ofDigits 256 rest.reverse)).map
        (fun d => base58Alphabet.getD d '1')).reverse).foldl
      (fun a c => a * 58 + (b58CharVal c).getD 0) 0
      = Nat.ofDigits 256 rest.reverse := by
    rw [List.foldl_append,
      foldl_mul_add_replicate_zero 58 (fun c => (b58CharVal c).getD 0) '1' rfl,
      foldl_be 58 (fun c => (b58CharVal c).getD 0), List.map_map]
    have hmap : (Nat.digits 58 (Nat.ofDigits 256 rest.reverse)).map
        ((fun c => (b58CharVal c).getD 0) ∘ (fun d => base58Alphabet.getD d '1'))
        = (Nat.digits 58 (Nat.ofDigits 256 rest.reverse)).map id := by
      apply List.map_congr_left
      intro d hd
      simp only [Function.comp_apply, id_eq]
      rw [b58CharVal_embed d (hds_lt d hd)]
      rfl
    rw [hmap, List.map_id, Nat.ofDigits_digits]
  rw [h1, h2, digits_be_inverse rest hlt hhead]

/-- Round trip: decoding an encoded byte string returns it exactly. -/
theorem bs58_decode_encode (bytes : List Nat) (hb : ∀ b ∈ bytes, b < 256) :
    bs58_decode (bs58_encode bytes) = some bytes := by
  have hzp_rep : bytes.takeWhile (fun b => b == 0) =
      List.replicate ((bytes.takeWhile (fun b => b == 0)).length) 0 := by
    apply List.eq_replicate_of_mem
    intro b hbmem
    have hall := List.all_takeWhile (p := fun b => b == 0) (l := bytes)
    rw [List.all_eq_true] at hall
    have := hall b hbmem
    simpa using this
  have hsplit : bytes =
      List.replicate ((bytes.takeWhile (fun b => b == 0)).length) 0 ++
        bytes.dropWhile (fun b => b == 0) := by
    conv_lhs => rw [← List.takeWhile_append_dropWhile (p := fun b => b == 0)
      (l := bytes)]
    rw [← hzp_rep]
  rw [hsplit]
  apply bs58_decode_encode_split
  · intro x hx
    have hne : bytes.dropWhile (fun b => b == 0) ≠ [] := by
      intro hc; rw [hc] at hx; cases hx
    have hhd := List.head_dropWhile_not (fun b => b == 0) bytes hne
    rw [List.head?_eq_head hne] at hx
    injection hx with hx2
    rw [hx2] at hhd
    simpa using hhd
  · intro b hbmem
    exact hb b ((List.dropWhile_sublist (fun b => b == 0)).subset hbmem)

/-- Claim C7: for every address built from a 32-byte public key,
`from_string (to_string a)` succeeds and returns `a`; and `from_string`
fails with an `InvalidAddress` error on any string whose base58 decoding
has a length other than 32. -/
theorem c7_address_string_roundtrip :
    (∀ a : Address, a.public_key.length = 32 → (∀ b ∈ a.public_key, b < 256) →
      Address.from_string (Address.to_string a) = .ok a) ∧
    (∀ (s : List Char) (decoded : List Nat), bs58_decode s = some decoded →
      decoded.length ≠ 32 →
      Address.from_string s = .error (.InvalidAddress "Invalid address length")) := by
  constructor
  · intro a hlen hb
    unfold Address.from_string Address.to_string
    rw [bs58_decode_encode a.public_key hb]
    simp [hlen]
  · intro s decoded hdec hne
    unfold Address.from_string
    rw [hdec]
    simp [hne]

/-- Witness for C7: the all-zero 32-byte address (which encodes to 32
`'1'` characters) round-trips, and the empty string (which decodes to 0
bytes) is rejected with the invalid-length error. -/
theorem c7_address_string_roundtrip_witness :
    Address.from_string (Address.to_string ⟨List.replicate 32 0⟩) =
      .ok ⟨List.replicate 32 0⟩ ∧
    Address.from_string [] = .error (.InvalidAddress "Invalid address length") := by
  constructor
  · exact c7_address_string_roundtrip.1 ⟨List.replicate 32 0⟩ (by simp)
      (fun b hbm => by rw [List.eq_of_mem_replicate hbm]; norm_num)
  · exact c7_address_string_roundtrip.2 [] []
      (by simp [bs58_decode, Nat.digits_zero]) (by decide)

/-- Sum of the amounts of the notes satisfying `p`. -/
def sumBy (p : Note → Bool) (l : List Note) : Nat :=
  ((l.filter p).map Note.amount).sum

/-- Sum of amounts of unspent notes of `addr` with `block_height` set. -/
def confirmedUnspentSum (l : List Note) (addr : Address) : Nat :=
  sumBy (fun n => n.address == addr && !n.spent && n.block_height.isSome) l

/-- Sum of amounts of unspent notes of `addr` without `block_height`. -/
def unconfirmedUnspentSum (l : List Note) (addr : Address) : Nat :=
  sumBy (fun n => n.address == addr && !n.spent && !n.block_height.isSome) l

/-- Sum of the amounts of all unspent notes. -/
def unspentTotal (l : List Note) : Nat :=
  sumBy (fun n => !n.spent) l

/-- A call in a `BalanceManager` call sequence. -/
inductive BMOp where
  | add (n : Note)
  | spend (id : Nat)

/-- Execute one call, keeping the state (results are discarded). -/
def applyOp (s : BalanceManager) : BMOp → BalanceManager
  | .add n => (s.add_note n).1
  | .spend id => (s.spend_note id).1

/-- Execute a call sequence from a starting state. -/
def runOps (s : BalanceManager) (ops : List BMOp) : BalanceManager :=
  ops.foldl applyOp s

/-- The ids of the notes passed to `add_note` in a call sequence. -/
def addIds (ops : List BMOp) : List Nat :=
  ops.filterMap (fun op => match op with
    | .add n => some n.id
    | .spend _ => none)

/-- The total amount passed to `add_note` in a call sequence. -/
def addAmounts (ops : List BMOp) : Nat :=
  (ops.map (fun op => match op with
    | .add n => n.amount
    | .spend _ => 0)).sum

/-- The balance/note coherence invariant of a `BalanceManager`, together
with the bookkeeping facts needed to push it through a call sequence. -/
structure BalInv (s : BalanceManager) : Prop where
  conf : ∀ addr, (s.get_balance addr).confirmed = confirmedUnspentSum s.notes addr
  unconf : ∀ addr,
    (s.get_balance addr).unconfirmed = unconfirmedUnspentSum s.notes addr
  present : ∀ n ∈ s.notes, (lookupBal s.address_balances n.address).isSome = true
  nodup : (s.notes.map Note.id).Nodup

/-- Counterexample to claim C1 as stated: `add_note` credits the balance
even for a note whose `spent` flag is already true, so after adding a
single already-spent confirmed note of amount 5 the confirmed balance is
5 while the sum of unspent confirmed note amounts is 0. -/
theorem c1_counterexample_add_spent_note :
    ((runOps BalanceManager.new
        [.add ⟨1, ⟨[]⟩, 5, some 10, "tx", 0, true, false, 0⟩]).get_balance
          ⟨[]⟩).confirmed ≠
      confirmedUnspentSum
        (runOps BalanceManager.new
          [.add ⟨1, ⟨[]⟩, 5, some 10, "tx", 0, true, false, 0⟩]).notes ⟨[]⟩ := by
  decide

theorem sumBy_cons (p : Note → Bool) (x : Note) (xs : List Note) :
    sumBy p (x :: xs) = (if p x then x.amount else 0) + sumBy p xs := by
  unfold sumBy
  rw [List.filter_cons]
  by_cases h : p x
  · simp [h]
  · simp [h]

theorem sumBy_append_single (p : Note → Bool) (l : List Note) (n : Note) :
    sumBy p (l ++ [n]) = sumBy p l + (if p n then n.amount else 0) := by
  unfold sumBy
  rw [List.filter_append, List.filter_cons]
  by_cases h : p n
  · simp [h]
  · simp [h]

theorem sumBy_le_sumBy (p q : Note → Bool)
    (himp : ∀ n, p n = true → q n = true) :
    ∀ l : List Note, sumBy p l ≤ sumBy q l := by
  intro l
  induction l with
  | nil => exact Nat.le_refl 0
  | cons x xs ih =>
      rw [sumBy_cons, sumBy_cons]
      by_cases h : p x = true
      · rw [if_pos h, if_pos (himp x h)]
        omega
      · rw [if_neg h]
        by_cases hq : q x = true
        · rw [if_pos hq]; omega
        · rw [if_neg hq]; omega

theorem markSpent_nop (l : List Note) (id : Nat)
    (h : ∀ n ∈ l, (n.id == id) = false) : markSpent l id = l := by
  unfold markSpent
  conv_rhs => rw [← List.map_id l]
  apply List.map_congr_left
  intro n hn
  simp [h n hn]

theorem markSpent_map_id (l : List Note) (id : Nat) :
    (markSpent l id).map Note.id = l.map Note.id := by
  unfold markSpent
  rw [List.map_map]
  apply List.map_congr_left
  intro n _
  by_cases h : n.id = id <;> simp [h]

theorem markSpent_addresses (l : List Note) (id : Nat) :
    ∀ n' ∈ markSpent l id, ∃ n ∈ l, n'.address = n.address := by
  intro n' hn'
  unfold markSpent at hn'
  rw [List.mem_map] at hn'
  obtain ⟨n, hn, rfl⟩ := hn'
  refine ⟨n, hn, ?_⟩
  by_cases h : n.id = id <;> simp [h]

theorem lookupBal_nil (a : Address) : lookupBal [] a = none := rfl

theorem lookupBal_cons (p : Address × Balance) (ps : List (Address × Balance))
    (a : Address) :
    lookupBal (p :: ps) a = if p.1 == a then some p.2 else lookupBal ps a := by
  unfold lookupBal
  rw [List.find?_cons]
  by_cases h : (p.1 == a) = true
  · simp [h]
  · simp [h]

theorem updateBal_cons (p : Address × Balance) (ps : List (Address × Balance))
    (a : Address) (b : Balance) :
    updateBal (p :: ps) a b =
      (if p.1 == a then (p.1, b) else p) :: updateBal ps a b := rfl

theorem lookupBal_update_self (l : List (Address × Balance)) (a : Address)
    (b b0 : Balance) (h : lookupBal l a = some b0) :
    lookupBal (updateBal l a b) a = some b := by
  induction l with
  | nil => cases h
  | cons p ps ih =>
      rw [updateBal_cons]
      by_cases hp : (p.1 == a) = true
      · rw [if_pos hp, lookupBal_cons]
        simp [hp]
      · rw [if_neg hp, lookupBal_cons, if_neg hp]
        rw [lookupBal_cons, if_neg hp] at h
        exact ih h

theorem lookupBal_update_ne (l : List (Address × Balance)) (a : Address)
    (b : Balance) (a' : Address) (h : a' ≠ a) :
    lookupBal (updateBal l a b) a' = lookupBal l a' := by
  induction l with
  | nil => rfl
  | cons p ps ih =>
      rw [updateBal_cons]
      by_cases hp : (p.1 == a) = true
      · rw [if_pos hp]
        have hpa : p.1 = a := by simpa using hp
        have hne : (p.1 == a') = false := by
          rw [hpa]
          exact beq_eq_false_iff_ne.mpr fun hc => h hc.symm
        rw [lookupBal_cons ⟨p.1, b⟩ (updateBal ps a b) a', lookupBal_cons p ps a']
        simp [hne, ih]
      · rw [if_neg hp]
        rw [lookupBal_cons p (updateBal ps a b) a', lookupBal_cons p ps a']
        by_cases hq : (p.1 == a') = true
        · rw [if_pos hq, if_pos hq]
        · rw [if_neg hq, if_neg hq]
          exact ih

theorem lookupBal_append_self (l : List (Address × Balance)) (a : Address)
    (b : Balance) (h : lookupBal l a = none) :
    lookupBal (l ++ [(a, b)]) a = some b := by
  induction l with
  | nil => simp [lookupBal_cons]
  | cons p ps ih =>
      rw [lookupBal_cons] at h
      rw [List.cons_append, lookupBal_cons]
      by_cases hp : (p.1 == a) = true
      · rw [if_pos hp] at h
        cases h
      · rw [if_neg hp] at h
        rw [if_neg hp]
        exact ih h

theorem lookupBal_append_ne (l : List (Address × Balance)) (a : Address)
    (b : Balance) (a' : Address) (h : a' ≠ a) :
    lookupBal (l ++ [(a, b)]) a' = lookupBal l a' := by
  induction l with
  | nil =>
      have hne : (a == a') = false :=
        beq_eq_false_iff_ne.mpr fun hc => h hc.symm
      simp [lookupBal_cons, hne, lookupBal_nil]
  | cons p ps ih =>
      rw [List.cons_append, lookupBal_cons, lookupBal_cons]
      by_cases hq : (p.1 == a') = true
      · rw [if_pos hq, if_pos hq]
      · rw [if_neg hq, if_neg hq]
        exact ih

theorem sumBy_markSpent (p : Note → Bool)
    (hp : ∀ m : Note, p { m with spent := true } = false) :
    ∀ (l : List Note) (id : Nat) (n : Note), (l.map Note.id).Nodup →
      l.find? (fun m => m.id == id) = some n →
      sumBy p l = sumBy p (markSpent l id) + (if p n then n.amount else 0) := by
  intro l
  induction l with
  | nil => intro id n _ hfind; cases hfind
  | cons x xs ih =>
      intro id n hnodup hfind
      simp only [List.map_cons, List.nodup_cons] at hnodup
      obtain ⟨hx_not, hxs_nodup⟩ := hnodup
      by_cases hx : (x.id == id) = true
      · rw [List.find?_cons_of_pos xs hx] at hfind
        injection hfind with hxn
        subst hxn
        have hxid : x.id = id := by simpa using hx
        have hxs_no : ∀ m ∈ xs, (m.id == id) = false := by
          intro m hm
          have hmne : m.id ≠ x.id := fun hc =>
            hx_not (hc ▸ List.mem_map_of_mem Note.id hm)
          rw [← hxid]
          exact beq_eq_false_iff_ne.mpr hmne
        have hmark : markSpent (x :: xs) id = { x with spent := true } :: xs := by
          unfold markSpent
          rw [List.map_cons]
          congr 1
          · simp [hx]
          · exact markSpent_nop xs id hxs_no
        by_cases hpx : p x = true
        · rw [hmark, sumBy_cons, sumBy_cons, hp x, if_pos hpx]
          simp only [Bool.false_eq_true, if_false]
          omega
        · rw [hmark, sumBy_cons, sumBy_cons, hp x, if_neg hpx]
          simp only [Bool.false_eq_true, if_false]
          omega
      · rw [List.find?_cons_of_neg xs hx] at hfind
        have hmark : markSpent (x :: xs) id = x :: markSpent xs id := by
          unfold markSpent
          rw [List.map_cons]
          congr 1
          simp [hx]
        rw [hmark, sumBy_cons, sumBy_cons, ih id n hxs_nodup hfind]
        omega

theorem confirmedUnspentSum_le_total (l : List Note) (addr : Address) :
    confirmedUnspentSum l addr ≤ unspentTotal l :=
  sumBy_le_sumBy _ _
    (fun m hm => by simp only [Bool.and_eq_true] at hm; exact hm.1.2) l

theorem unconfirmedUnspentSum_le_total (l : List Note) (addr : Address) :
    unconfirmedUnspentSum l addr ≤ unspentTotal l :=
  sumBy_le_sumBy _ _
    (fun m hm => by simp only [Bool.and_eq_true] at hm; exact hm.1.2) l

theorem add_note_inv (s : BalanceManager) (n : Note) (hinv : BalInv s)
    (hspent : n.spent = false)
    (hfresh : ∀ m ∈ s.notes, m.id ≠ n.id)
    (hbound : unspentTotal s.notes + n.amount < U64) :
    BalInv (s.add_note n).1 ∧
      unspentTotal (s.add_note n).1.notes = unspentTotal s.notes + n.amount ∧
      (s.add_note n).1.notes = s.notes ++ [n] := by
  have hnotany : ¬ (s.notes.any (fun m => m.id == n.id) = true) := by
    rw [List.any_eq_true]
    rintro ⟨m, hm, hbeq⟩
    exact hfresh m hm (by simpa using hbeq)
  have hins : insertNote s.notes n = s.notes ++ [n] := by
    unfold insertNote
    rw [if_neg hnotany]
  -- facts about the new note list, independent of the balance branch
  have htot : unspentTotal (s.notes ++ [n]) = unspentTotal s.notes + n.amount := by
    unfold unspentTotal
    rw [sumBy_append_single]
    simp [hspent]
  have hnodup : ((s.notes ++ [n]).map Note.id).Nodup := by
    rw [List.map_append]
    rw [List.nodup_append]
    refine ⟨hinv.nodup, List.nodup_singleton _, ?_⟩
    intro a ha
    rw [List.mem_map] at ha
    obtain ⟨m, hm, rfl⟩ := ha
    simpa using hfresh m hm
  have hCsum : ∀ addr, addr ≠ n.address →
      confirmedUnspentSum (s.notes ++ [n]) addr = confirmedUnspentSum s.notes addr := by
    intro addr haddr
    unfold confirmedUnspentSum
    rw [sumBy_append_single]
    have : (n.address == addr) = false :=
      beq_eq_false_iff_ne.mpr fun hc => haddr hc.symm
    simp [this]
  have hUsum : ∀ addr, addr ≠ n.address →
      unconfirmedUnspentSum (s.notes ++ [n]) addr = unconfirmedUnspentSum s.notes addr := by
    intro addr haddr
    unfold unconfirmedUnspentSum
    rw [sumBy_append_single]
    have : (n.address == addr) = false :=
      beq_eq_false_iff_ne.mpr fun hc => haddr hc.symm
    simp [this]
  have hCsum_self : confirmedUnspentSum (s.notes ++ [n]) n.address =
      confirmedUnspentSum s.notes n.address +
        (if n.block_height.isSome then n.amount else 0) := by
    unfold confirmedUnspentSum
    rw [sumBy_append_single]
    cases hbh : n.block_height.isSome <;> simp [hspent, hbh]
  have hUsum_self : unconfirmedUnspentSum (s.notes ++ [n]) n.address =
      unconfirmedUnspentSum s.notes n.address +
        (if n.block_height.isSome then 0 else n.amount) := by
    unfold unconfirmedUnspentSum
    rw [sumBy_append_single]
    cases hbh : n.block_height.isSome <;> simp [hspent, hbh]
  cases hlk : lookupBal s.address_balances n.address with
  | some b =>
      have hb_eq : s.get_balance n.address = b := by
        simp [BalanceManager.get_balance, hlk]
      have hconf_b : b.confirmed = confirmedUnspentSum s.notes n.address := by
        rw [← hb_eq]
        exact hinv.conf n.address
      have hunconf_b : b.unconfirmed = unconfirmedUnspentSum s.notes n.address := by
        rw [← hb_eq]
        exact hinv.unconf n.address
      have hstate : (s.add_note n).1 = ⟨s.notes ++ [n],
          updateBal s.address_balances n.address
            (if n.block_height.isSome then
              { b with confirmed := u64add b.confirmed n.amount }
            else
              { b with unconfirmed := u64add b.unconfirmed n.amount })⟩ := by
        simp only [BalanceManager.add_note, hins, hlk]
      rw [hstate]
      refine ⟨⟨?_, ?_, ?_, hnodup⟩, htot, rfl⟩
      · intro addr
        by_cases haddr : addr = n.address
        · subst haddr
          unfold BalanceManager.get_balance
          rw [lookupBal_update_self s.address_balances n.address _ b hlk]
          rw [hCsum_self, ← hconf_b]
          cases hbh : n.block_height.isSome
          · simp [hbh]
          · simp only [hbh, if_true]
            show u64add b.confirmed n.amount = b.confirmed + n.amount
            unfold u64add
            apply Nat.mod_eq_of_lt
            have h1 : confirmedUnspentSum s.notes n.address ≤ unspentTotal s.notes :=
              confirmedUnspentSum_le_total s.notes n.address
            omega
        · unfold BalanceManager.get_balance
          rw [lookupBal_update_ne s.address_balances n.address _ addr haddr]
          rw [hCsum addr haddr]
          exact hinv.conf addr
      · intro addr
        by_cases haddr : addr = n.address
        · subst haddr
          unfold BalanceManager.get_balance
          rw [lookupBal_update_self s.address_balances n.address _ b hlk]
          rw [hUsum_self, ← hunconf_b]
          cases hbh : n.block_height.isSome
          · simp only [hbh, Bool.false_eq_true, if_false]
            show u64add b.unconfirmed n.amount = b.unconfirmed + n.amount
            unfold u64add
            apply Nat.mod_eq_of_lt
            have h1 : unconfirmedUnspentSum s.notes n.address ≤ unspentTotal s.notes :=
              unconfirmedUnspentSum_le_total s.notes n.address
            omega
          · simp [hbh]
        · unfold BalanceManager.get_balance
          rw [lookupBal_update_ne s.address_balances n.address _ addr haddr]
          rw [hUsum addr haddr]
          exact hinv.unconf addr
      · intro m hm
        rcases List.mem_append.1 hm with hm1 | hm1
        · have hold := hinv.present m hm1
          rw [Option.isSome_iff_exists] at hold
          obtain ⟨b0, hb0⟩ := hold
          by_cases haddr : m.address = n.address
          · rw [haddr, lookupBal_update_self s.address_balances n.address _ b hlk]
            rfl
          · rw [lookupBal_update_ne s.address_balances n.address _ m.address haddr,
              hb0]
            rfl
        · have hm2 : m = n := by simpa using hm1
          rw [hm2, lookupBal_update_self s.address_balances n.address _ b hlk]
          rfl
  | none =>
      have hb_eq : s.get_balance n.address = Balance.new := by
        simp [BalanceManager.get_balance, hlk]
      have hconf_0 : confirmedUnspentSum s.notes n.address = 0 := by
        rw [← hinv.conf n.address, hb_eq]
        rfl
      have hunconf_0 : unconfirmedUnspentSum s.notes n.address = 0 := by
        rw [← hinv.unconf n.address, hb_eq]
        rfl
      have hstate : (s.add_note n).1 = ⟨s.notes ++ [n],
          s.address_balances ++ [(n.address,
            if n.block_height.isSome then
              { Balance.new with confirmed := u64add Balance.new.confirmed n.amount }
            else
              { Balance.new with unconfirmed := u64add Balance.new.unconfirmed n.amount })]⟩ := by
        simp only [BalanceManager.add_note, hins, hlk]
      rw [hstate]
      have hamt : u64add 0 n.amount = n.amount := by
        unfold u64add
        rw [Nat.zero_add]
        exact Nat.mod_eq_of_lt (by omega)
      refine ⟨⟨?_, ?_, ?_, hnodup⟩, htot, rfl⟩
      · intro addr
        by_cases haddr : addr = n.address
        · subst haddr
          unfold BalanceManager.get_balance
          rw [lookupBal_append_self s.address_balances n.address _ hlk]
          rw [hCsum_self, hconf_0]
          cases hbh : n.block_height.isSome <;>
            simp [hbh, Balance.new, hamt]
        · unfold BalanceManager.get_balance
          rw [lookupBal_append_ne s.address_balances n.address _ addr haddr]
          rw [hCsum addr haddr]
          exact hinv.conf addr
      · intro addr
        by_cases haddr : addr = n.address
        · subst haddr
          unfold BalanceManager.get_balance
          rw [lookupBal_append_self s.address_balances n.address _ hlk]
          rw [hUsum_self, hunconf_0]
          cases hbh : n.block_height.isSome <;>
            simp [hbh, Balance.new, hamt]
        · unfold BalanceManager.get_balance
          rw [lookupBal_append_ne s.address_balances n.address _ addr haddr]
          rw [hUsum addr haddr]
          exact hinv.unconf addr
      · intro m hm
        rcases List.mem_append.1 hm with hm1 | hm1
        · have hold := hinv.present m hm1
          rw [Option.isSome_iff_exists] at hold
          obtain ⟨b0, hb0⟩ := hold
          have haddr : m.address ≠ n.address := by
            intro hc
            rw [hc, hlk] at hb0
            cases hb0
          rw [lookupBal_append_ne s.address_balances n.address _ m.address haddr,
            hb0]
          rfl
        · have hm2 : m = n := by simpa using hm1
          rw [hm2, lookupBal_append_self s.address_balances n.address _ hlk]
          rfl

theorem spend_note_inv (s : BalanceManager) (id : Nat) (hinv : BalInv s) :
    BalInv (s.spend_note id).1 ∧
      unspentTotal (s.spend_note id).1.notes ≤ unspentTotal s.notes ∧
      (s.spend_note id).1.notes.map Note.id = s.notes.map Note.id := by
  cases hfind : s.notes.find? (fun m => m.id == id) with
  | none =>
      have hstate : (s.spend_note id).1 = s := by
        simp only [BalanceManager.spend_note, hfind]
      rw [hstate]
      exact ⟨hinv, Nat.le_refl _, rfl⟩
  | some note =>
      by_cases hsp : note.spent = true
      · have hstate : (s.spend_note id).1 = s := by
          simp only [BalanceManager.spend_note, hfind, hsp, if_true]
        rw [hstate]
        exact ⟨hinv, Nat.le_refl _, rfl⟩
      · have hsp' : note.spent = false := by simpa using hsp
        have hmem : note ∈ s.notes := List.mem_of_find?_eq_some hfind
        have hpres := hinv.present note hmem
        rw [Option.isSome_iff_exists] at hpres
        obtain ⟨b, hlk⟩ := hpres
        have hb_eq : s.get_balance note.address = b := by
          simp [BalanceManager.get_balance, hlk]
        have hconf_b : b.confirmed = confirmedUnspentSum s.notes note.address := by
          rw [← hb_eq]; exact hinv.conf note.address
        have hunconf_b : b.unconfirmed =
            unconfirmedUnspentSum s.notes note.address := by
          rw [← hb_eq]; exact hinv.unconf note.address
        have hstate : (s.spend_note id).1 = ⟨markSpent s.notes id,
            updateBal s.address_balances note.address
              (if note.block_height.isSome then
                { b with confirmed := b.confirmed - note.amount }
              else
                { b with unconfirmed := b.unconfirmed - note.amount })⟩ := by
          simp only [BalanceManager.spend_note, hfind, hsp', Bool.false_eq_true,
            if_false, hlk]
        rw [hstate]
        have hCeq : ∀ addr, confirmedUnspentSum s.notes addr =
            confirmedUnspentSum (markSpent s.notes id) addr +
              (if note.address == addr && !note.spent && note.block_height.isSome
               then note.amount else 0) :=
          fun addr => sumBy_markSpent _ (fun m => by simp) s.notes id note
            hinv.nodup hfind
        have hUeq : ∀ addr, unconfirmedUnspentSum s.notes addr =
            unconfirmedUnspentSum (markSpent s.notes id) addr +
              (if note.address == addr && !note.spent && !note.block_height.isSome
               then note.amount else 0) :=
          fun addr => sumBy_markSpent _ (fun m => by simp) s.notes id note
            hinv.nodup hfind
        have hTeq : unspentTotal s.notes =
            unspentTotal (markSpent s.notes id) +
              (if !note.spent then note.amount else 0) :=
          sumBy_markSpent _ (fun m => by simp) s.notes id note hinv.nodup hfind
        refine ⟨⟨?_, ?_, ?_, ?_⟩, ?_, markSpent_map_id s.notes id⟩
        · intro addr
          by_cases haddr : addr = note.address
          · subst haddr
            unfold BalanceManager.get_balance
            rw [lookupBal_update_self s.address_balances note.address _ b hlk]
            cases hbh : note.block_height.isSome
            · have h1 := hCeq note.address
              rw [hbh] at h1
              simp only [Bool.and_false, Bool.false_eq_true, if_false,
                Nat.add_zero] at h1
              show b.confirmed = confirmedUnspentSum (markSpent s.notes id)
                note.address
              rw [hconf_b, h1]
            · have h1 := hCeq note.address
              rw [hbh] at h1
              simp only [hsp', beq_self_eq_true, Bool.not_false, Bool.and_true,
                Bool.true_and, if_true] at h1
              show b.confirmed - note.amount =
                confirmedUnspentSum (markSpent s.notes id) note.address
              rw [hconf_b, h1]
              omega
          · unfold BalanceManager.get_balance
            rw [lookupBal_update_ne s.address_balances note.address _ addr haddr]
            have h1 := hCeq addr
            have hne : (note.address == addr) = false :=
              beq_eq_false_iff_ne.mpr fun hc => haddr hc.symm
            simp only [hne, Bool.false_and, Bool.false_eq_true, if_false,
              Nat.add_zero] at h1
            rw [← h1]
            exact hinv.conf addr
        · intro addr
          by_cases haddr : addr = note.address
          · subst haddr
            unfold BalanceManager.get_balance
            rw [lookupBal_update_self s.address_balances note.address _ b hlk]
            cases hbh : note.block_height.isSome
            · have h1 := hUeq note.address
              rw [hbh] at h1
              simp only [hsp', beq_self_eq_true, Bool.not_false, Bool.and_true,
                Bool.true_and, if_true] at h1
              show b.unconfirmed - note.amount =
                unconfirmedUnspentSum (markSpent s.notes id) note.address
              rw [hunconf_b, h1]
              omega
            · have h1 := hUeq note.address
              rw [hbh] at h1
              simp only [Bool.not_true, Bool.and_false, Bool.false_eq_true,
                if_false, Nat.add_zero] at h1
              show b.unconfirmed = unconfirmedUnspentSum (markSpent s.notes id)
                note.address
              rw [hunconf_b, h1]
          · unfold BalanceManager.get_balance
            rw [lookupBal_update_ne s.address_balances note.address _ addr haddr]
            have h1 := hUeq addr
            have hne : (note.address == addr) = false :=
              beq_eq_false_iff_ne.mpr fun hc => haddr hc.symm
            simp only [hne, Bool.false_and, Bool.false_eq_true, if_false,
              Nat.add_zero] at h1
            rw [← h1]
            exact hinv.unconf addr
        · intro m hm
          obtain ⟨m0, hm0, haddr_eq⟩ := markSpent_addresses s.notes id m hm
          have hold := hinv.present m0 hm0
          rw [Option.isSome_iff_exists] at hold
          obtain ⟨b0, hb0⟩ := hold
          rw [haddr_eq]
          by_cases had : m0.address = note.address
          · rw [had, lookupBal_update_self s.address_balances note.address _ b hlk]
            rfl
          · rw [lookupBal_update_ne s.address_balances note.address _ m0.address
              had, hb0]
            rfl
        · rw [markSpent_map_id]
          exact hinv.nodup
        · show unspentTotal (markSpent s.notes id) ≤ unspentTotal s.notes
          rw [hTeq]
          omega

theorem runOps_balinv : ∀ (ops : List BMOp) (s : BalanceManager), BalInv s →
    (∀ n, BMOp.add n ∈ ops → n.spent = false) →
    (addIds ops ++ s.notes.map Note.id).Nodup →
    unspentTotal s.notes + addAmounts ops < U64 →
    BalInv (runOps s ops) := by
  intro ops
  induction ops with
  | nil => intro s hinv _ _ _; exact hinv
  | cons op rest ih =>
      intro s hinv hadds hnodup hbound
      cases op with
      | add n =>
          have hnodup' : (n.id :: (addIds rest ++ s.notes.map Note.id)).Nodup := by
            simpa [addIds] using hnodup
          rw [List.nodup_cons] at hnodup'
          have hamts : addAmounts (BMOp.add n :: rest) =
              n.amount + addAmounts rest := by
            unfold addAmounts
            simp
          rw [hamts] at hbound
          have hfresh : ∀ m ∈ s.notes, m.id ≠ n.id := by
            intro m hm hc
            exact hnodup'.1
              (List.mem_append.2 (Or.inr (hc ▸ List.mem_map_of_mem Note.id hm)))
          obtain ⟨hinv', htot', hnotes'⟩ :=
            add_note_inv s n hinv (hadds n (by simp)) hfresh (by omega)
          show BalInv (runOps (s.add_note n).1 rest)
          apply ih _ hinv'
          · intro m hm
            exact hadds m (by simp [hm])
          · rw [hnotes', List.map_append]
            simp only [List.map_cons, List.map_nil]
            have hperm : (addIds rest ++ (s.notes.map Note.id ++ [n.id])).Perm
                (n.id :: (addIds rest ++ s.notes.map Note.id)) := by
              refine ((List.perm_append_singleton n.id
                (s.notes.map Note.id)).append_left (addIds rest)).trans ?_
              exact List.perm_middle
            rw [hperm.nodup_iff]
            rw [List.nodup_cons]
            exact hnodup'
          · rw [htot']
            omega
      | spend id =>
          obtain ⟨hinv', htot', hids'⟩ := spend_note_inv s id hinv
          have hamts : addAmounts (BMOp.spend id :: rest) = addAmounts rest := by
            unfold addAmounts
            simp
          rw [hamts] at hbound
          show BalInv (runOps (s.spend_note id).1 rest)
          apply ih _ hinv'
          · intro m hm
            exact hadds m (by simp [hm])
          · rw [hids']
            simpa [addIds] using hnodup
          · omega

/-- Claim C1 (amended: the claim holds provided every note passed to
`add_note` is unspent, carries an id not used by any other `add_note`
call, and the total added amount stays below `2^64`): for any such
sequence of `add_note`/`spend_note` calls on a fresh `BalanceManager`, at
every point in the sequence and for every address, the confirmed balance
equals the sum of amounts of that address's unspent notes with
`block_height` set, and the unconfirmed balance equals the sum for those
without. -/
theorem c1_balances_equal_unspent_sums :
    ∀ ops : List BMOp,
      (∀ n, BMOp.add n ∈ ops → n.spent = false) →
      (addIds ops).Nodup →
      addAmounts ops < U64 →
      ∀ (k : Nat) (addr : Address),
        ((runOps BalanceManager.new (ops.take k)).get_balance addr).confirmed =
          confirmedUnspentSum (runOps BalanceManager.new (ops.take k)).notes addr ∧
        ((runOps BalanceManager.new (ops.take k)).get_balance addr).unconfirmed =
          unconfirmedUnspentSum (runOps BalanceManager.new (ops.take k)).notes addr := by
  intro ops hadds hnodup hbound k addr
  have hinv0 : BalInv BalanceManager.new := by
    refine ⟨fun a => rfl, fun a => rfl, ?_, ?_⟩
    · intro n hn
      simp [BalanceManager.new] at hn
    · simp [BalanceManager.new]
  have hsub : List.Sublist (addIds (ops.take k)) (addIds ops) :=
    List.Sublist.filterMap _ (List.take_sublist k ops)
  have hamts_le : addAmounts (ops.take k) ≤ addAmounts ops := by
    have hsplit : addAmounts (ops.take k) + addAmounts (ops.drop k) =
        addAmounts ops := by
      unfold addAmounts
      rw [← List.sum_append, ← List.map_append, List.take_append_drop]
    omega
  have hinv := runOps_balinv (ops.take k) BalanceManager.new hinv0
    (fun n hn => hadds n ((List.take_sublist k ops).subset hn))
    (by
      show (addIds (ops.take k) ++ ([] : List Note).map Note.id).Nodup
      rw [List.map_nil, List.append_nil]
      exact hnodup.sublist hsub)
    (by
      show unspentTotal ([] : List Note) + addAmounts (ops.take k) < U64
      have h0 : unspentTotal ([] : List Note) = 0 := rfl
      omega)
  exact ⟨hinv.conf addr, hinv.unconf addr⟩

/-- Witness for the amended C1: add one unspent confirmed note of amount
5 for an address and then spend it; after both calls the confirmed and
unconfirmed balances match the (now empty) unspent sums. -/
theorem c1_balances_equal_unspent_sums_witness :
    (((runOps BalanceManager.new
        ([BMOp.add ⟨1, ⟨[]⟩, 5, some 2, "t", 0, false, false, 0⟩,
          BMOp.spend 1].take 2)).get_balance ⟨[]⟩).confirmed =
      confirmedUnspentSum
        (runOps BalanceManager.new
          ([BMOp.add ⟨1, ⟨[]⟩, 5, some 2, "t", 0, false, false, 0⟩,
            BMOp.spend 1].take 2)).notes ⟨[]⟩) ∧
    (((runOps BalanceManager.new
        ([BMOp.add ⟨1, ⟨[]⟩, 5, some 2, "t", 0, false, false, 0⟩,
          BMOp.spend 1].take 2)).get_balance ⟨[]⟩).unconfirmed =
      unconfirmedUnspentSum
        (runOps BalanceManager.new
          ([BMOp.add ⟨1, ⟨[]⟩, 5, some 2, "t", 0, false, false, 0⟩,
            BMOp.spend 1].take 2)).notes ⟨[]⟩) := by
  exact c1_balances_equal_unspent_sums
    [BMOp.add ⟨1, ⟨[]⟩, 5, some 2, "t", 0, false, false, 0⟩, BMOp.spend 1]
    (by
      intro n hn
      simp only [List.mem_cons, List.not_mem_nil, or_false] at hn
      rcases hn with h | h
      · injection h with h2
        rw [h2]
      · cases h)
    (by decide)
    (by decide)
    2 ⟨[]⟩

end Wallet
